import Mathlib

/-!
Verification of the JSON call-trace comparison core (`json_comparator.py`).

The Python module compares two JSON-like trees (parsed callTracer results
from Geth and Besu) and produces an ordered list of typed difference
records.  This file gives a shallow embedding of the tree data model and of
the functions `normalize_call_trace`, `normalize_hex_value`,
`compare_json_recursive` and `compare_call_traces`, and proves the
specification claims about them.

Python-specific representation choices reflected in the embedding:
a Python `bool` is an instance of `int` (so the comparator's
`isinstance(x, (int, str))` test accepts booleans), `str(True)` is
`"True"`, `str` of an `int` is its decimal representation, dict keys are
iterated in sorted order (`sorted` on strings is lexicographic by code
point), and `None` is a distinguished value handled before any type test.
-/

/-- A JSON-like tree value: one of null, boolean, number, string,
sequence, or string-keyed mapping.  Mirrors the values Python's `json`
module produces (numbers restricted to integers, which is what call
traces contain). -/
inductive JsonVal where
  | null
  | bool (b : Bool)
  | num (n : Int)
  | str (s : String)
  | arr (elems : List JsonVal)
  | obj (kvs : List (String × JsonVal))

/-- One difference record, as in the Python `DiffResult` dataclass:
a path, the two values, and one of the four kinds
`missing_in_geth`, `missing_in_besu`, `value_mismatch`, `type_mismatch`
(the spec calls the first two `missing_in_left` / `missing_in_right`,
with Geth as the left tree). -/
structure DiffResult where
  path : String
  geth_value : JsonVal
  besu_value : JsonVal
  diff_type : String

/-- Aggregate result of one comparison, as in the Python
`ComparisonResult` dataclass. -/
structure ComparisonResult where
  is_match : Bool
  differences : List DiffResult
  geth_normalized : JsonVal
  besu_normalized : JsonVal

/-- Python `x is None`. -/
def isNull : JsonVal → Bool
  | JsonVal.null => true
  | _ => false

/-- Distinguishes the Python runtime type of a value
(`NoneType`, `bool`, `int`, `str`, `list`, `dict`): two embedded values
have equal `typeTag` exactly when their Python counterparts have equal
`type(...)`. -/
def typeTag : JsonVal → Nat
  | JsonVal.null => 0
  | JsonVal.bool _ => 1
  | JsonVal.num _ => 2
  | JsonVal.str _ => 3
  | JsonVal.arr _ => 4
  | JsonVal.obj _ => 5

/-- Python `isinstance(x, (int, str))`.  True for booleans as well,
because Python's `bool` is a subclass of `int`. -/
def isIntOrStr : JsonVal → Bool
  | JsonVal.bool _ => true
  | JsonVal.num _ => true
  | JsonVal.str _ => true
  | _ => false

/-- Python `str(x)` for the values on which the comparator stringifies:
booleans render as `True` / `False`, integers in decimal, strings as
themselves.  (Unused fallback for the remaining constructors.) -/
def pyStr : JsonVal → String
  | JsonVal.bool b => if b then "True" else "False"
  | JsonVal.num n => toString n
  | JsonVal.str s => s
  | _ => ""

/-- Python `x == y` for two scalars of the same runtime type (the only
situation in which the comparator's final equality test runs). -/
def scalarEq : JsonVal → JsonVal → Bool
  | JsonVal.bool x, JsonVal.bool y => x == y
  | JsonVal.num x, JsonVal.num y => x == y
  | JsonVal.str x, JsonVal.str y => x == y
  | _, _ => false

/-- Lexicographic comparison of character lists by code point; this is
exactly Python's `<=` on strings (and agrees with Lean's `String`
order), defined structurally so that it evaluates on concrete input. -/
def charListLe : List Char → List Char → Bool
  | [], _ => true
  | _ :: _, [] => false
  | a :: as, b :: bs => if a < b then true else if b < a then false else charListLe as bs

/-- Python string `<=`, used by `sorted` over dict keys. -/
def strLe (a b : String) : Bool := charListLe a.data b.data

/-- Python `sorted(set(geth.keys()) | set(besu.keys()))`: the distinct
keys of the two mappings in ascending string order. -/
def unionKeys (gk bk : List (String × JsonVal)) : List String :=
  List.insertionSort (fun a b => strLe a b = true)
    ((gk.map Prod.fst ++ bk.map Prod.fst).dedup)

lemma sizeOf_lookup_lt {k : String} {kvs : List (String × JsonVal)} {v : JsonVal}
    (h : List.lookup k kvs = some v) : sizeOf v < sizeOf kvs := by
  induction kvs with
  | nil => simp [List.lookup] at h
  | cons p rest ih =>
    rw [List.lookup] at h
    split at h
    · cases h
      cases p
      simp
      omega
    · have := ih h
      cases p
      simp
      omega

mutual

/-- Embedding of `compare_json_recursive` (json_comparator.py, lines
138-204).  The Python function appends records to a shared accumulator in
discovery order; the embedding returns the records each call contributes,
concatenated in the same order.  The branch structure follows the source:
null handling first, then the runtime-type test with the int/str
stringification lenience, then mappings (union of keys in sorted order),
then sequences (single length record plus pairwise recursion up to the
shorter length), then scalar equality. -/
def compare_json_recursive (g b : JsonVal) (path : String) : List DiffResult :=
  if isNull g && isNull b then []
  else if isNull g then [⟨path, JsonVal.null, b, "missing_in_geth"⟩]
  else if isNull b then [⟨path, g, JsonVal.null, "missing_in_besu"⟩]
  else if typeTag g ≠ typeTag b then
    if isIntOrStr g && isIntOrStr b then
      if pyStr g = pyStr b then []
      else [⟨path, g, b, "value_mismatch"⟩]
    else [⟨path, g, b, "type_mismatch"⟩]
  else
    match g, b with
    | JsonVal.obj gk, JsonVal.obj bk => compareObjects gk bk (unionKeys gk bk) path
    | JsonVal.arr gs, JsonVal.arr bs =>
        (if gs.length ≠ bs.length then
          [⟨path ++ ".length", JsonVal.num gs.length, JsonVal.num bs.length, "value_mismatch"⟩]
         else []) ++ compareArrays gs bs 0 path
    | g, b => if scalarEq g b then [] else [⟨path, g, b, "value_mismatch"⟩]
termination_by (sizeOf g + sizeOf b, 0)

/-- The key loop of the mapping branch: for each key of the sorted union,
handle that key, then the remaining keys. -/
def compareObjects (gk bk : List (String × JsonVal)) (keys : List String)
    (path : String) : List DiffResult :=
  match keys with
  | [] => []
  | k :: ks => compareKey gk bk k path ++ compareObjects gk bk ks path
termination_by (sizeOf gk + sizeOf bk, keys.length + 1)
decreasing_by
  · exact Prod.Lex.right _ (by omega)
  · exact Prod.Lex.right _ (Nat.lt_succ_self _)

/-- The body of the key loop: emit a missing record when the key is
present on only one side, recurse with the path extended by `.key` when
it is present on both. -/
def compareKey (gk bk : List (String × JsonVal)) (k : String) (path : String) :
    List DiffResult :=
  match h1 : List.lookup k gk, h2 : List.lookup k bk with
  | none, some bv => [⟨path ++ "." ++ k, JsonVal.null, bv, "missing_in_geth"⟩]
  | some gv, none => [⟨path ++ "." ++ k, gv, JsonVal.null, "missing_in_besu"⟩]
  | some gv, some bv => compare_json_recursive gv bv (path ++ "." ++ k)
  | none, none => []
termination_by (sizeOf gk + sizeOf bk, 0)
decreasing_by
  exact Prod.Lex.left _ _ (Nat.add_lt_add (sizeOf_lookup_lt h1) (sizeOf_lookup_lt h2))

/-- The element loop of the sequence branch: pairwise recursion over
`range(min(len_geth, len_besu))` with the path extended by `[i]`,
realized structurally (both lists are consumed together, so the loop
stops at the shorter length). -/
def compareArrays (gs bs : List JsonVal) (i : Nat) (path : String) : List DiffResult :=
  match gs, bs with
  | g :: gs2, b :: bs2 =>
      compare_json_recursive g b (path ++ "[" ++ toString i ++ "]") ++
        compareArrays gs2 bs2 (i + 1) path
  | _, _ => []
termination_by (sizeOf gs + sizeOf bs, 0)

end

/-- The recognized call-frame fields, in normalization order
(json_comparator.py, lines 100-101). -/
def normalize_fields : List String :=
  ["from", "to", "type", "input", "output", "error", "revertReason",
   "gas", "gasUsed", "value", "calls"]

mutual

/-- Embedding of `normalize_call_trace` (json_comparator.py, lines
89-115): a non-mapping is returned unchanged; a mapping is rebuilt from
the recognized fields in their fixed order, keeping a field only when it
is present with a non-`None` value, and treating `calls` specially
(kept only when it is a non-empty list, with each element recursively
normalized). -/
def normalize_call_trace (trace : JsonVal) : JsonVal :=
  match trace with
  | JsonVal.obj kvs => JsonVal.obj (normalizeFieldsAux kvs normalize_fields)
  | t => t
termination_by (sizeOf trace, 0)

/-- The field loop of `normalize_call_trace`: one output entry per
recognized field that survives the per-field rule, in field order. -/
def normalizeFieldsAux (kvs : List (String × JsonVal)) (fields : List String) :
    List (String × JsonVal) :=
  match fields with
  | [] => []
  | f :: fs =>
    (match normFieldValue kvs f with
     | some v => [(f, v)]
     | none => []) ++ normalizeFieldsAux kvs fs
termination_by (sizeOf kvs, fields.length + 1)

/-- The per-field rule of the `normalize_call_trace` loop body:
`some` of the value this field contributes to the normalized mapping, or
`none` when the field is dropped (absent key, `None` value, or for
`calls`: a non-list or empty-list value). -/
def normFieldValue (kvs : List (String × JsonVal)) (f : String) : Option JsonVal :=
  match h : List.lookup f kvs with
  | some v =>
      if isNull v then none
      else if f = "calls" then callsValue v
      else some v
  | none => none
termination_by (sizeOf kvs, 1)
decreasing_by
  exact Prod.Lex.left _ _ (sizeOf_lookup_lt h)

/-- The `calls` case of the `normalize_call_trace` loop body: a
non-empty list is kept with every element recursively normalized; an
empty list or a non-list value is dropped. -/
def callsValue (v : JsonVal) : Option JsonVal :=
  match v with
  | JsonVal.arr calls =>
      if calls.length > 0 then some (JsonVal.arr (normalizeCallsList calls)) else none
  | _ => none
termination_by (sizeOf v, 0)

/-- Python `[normalize_call_trace(call) for call in calls]`. -/
def normalizeCallsList (calls : List JsonVal) : List JsonVal :=
  match calls with
  | [] => []
  | c :: cs => normalize_call_trace c :: normalizeCallsList cs
termination_by (sizeOf calls, 0)

end

/-- Embedding of `normalize_hex_value` (json_comparator.py, lines
118-125): a string starting with `0x` and longer than two characters has
the leading zeros of its digit part stripped (keeping at least one
digit); every other value is returned unchanged.  Expressed on the
character list of the string (`startswith('0x')` is a match on the first
two characters, `lstrip('0')` is `dropWhile`). -/
def normalize_hex_value (value : JsonVal) : JsonVal :=
  match value with
  | JsonVal.str s =>
      match s.data with
      | '0' :: 'x' :: rest =>
          if rest.length > 0 then
            JsonVal.str (String.mk ('0' :: 'x' ::
              (if (rest.dropWhile (fun c => c = '0')).isEmpty then ['0']
               else rest.dropWhile (fun c => c = '0'))))
          else value
      | _ => value
  | v => v

/-- Embedding of `compare_call_traces` (json_comparator.py, lines
207-237): optionally normalize both trees, run the recursive comparison
from path `root`, and package the result.  The commented-out
`deep_normalize_hex` pass of the source is (deliberately) not applied. -/
def compare_call_traces (geth_result besu_result : JsonVal) (normalize : Bool) :
    ComparisonResult :=
  let geth_normalized := if normalize then normalize_call_trace geth_result else geth_result
  let besu_normalized := if normalize then normalize_call_trace besu_result else besu_result
  let differences := compare_json_recursive geth_normalized besu_normalized "root"
  ⟨differences.length == 0, differences, geth_normalized, besu_normalized⟩

/-- Modelled from the spec (data model, section 3): the spec's value
categories make `boolean` and `number` distinct, so a value falls into
the spec's `number or string` category exactly when it is a number or a
string. -/
def specNumberOrString : JsonVal → Bool
  | JsonVal.num _ => true
  | JsonVal.str _ => true
  | _ => false

/-- Modelled from the spec (normalizer contract, section 4.1): a value
that is `null` or empty (empty string, empty sequence, empty mapping). -/
def specIsNullOrEmpty : JsonVal → Bool
  | JsonVal.null => true
  | JsonVal.str s => s == ""
  | JsonVal.arr xs => xs.isEmpty
  | JsonVal.obj kvs => kvs.isEmpty
  | _ => false

/-- The left/right mirror of a difference record: the two values swap
places, the two missing kinds exchange, and `value_mismatch` /
`type_mismatch` keep their kind; the path is unchanged. -/
def swapDiff (d : DiffResult) : DiffResult :=
  ⟨d.path, d.besu_value, d.geth_value,
    if d.diff_type = "missing_in_geth" then "missing_in_besu"
    else if d.diff_type = "missing_in_besu" then "missing_in_geth"
    else d.diff_type⟩

/-- One segment appended to a divergence path during the walk: a `.key`
step into a mapping, a bracketed index step into a sequence, or the
`.length` suffix of a sequence length record. -/
inductive PathSeg where
  | key (k : String)
  | idx (i : Nat)
  | length

/-- The string a path segment contributes. -/
def renderSeg : PathSeg → String
  | PathSeg.key k => "." ++ k
  | PathSeg.idx i => "[" ++ toString i ++ "]"
  | PathSeg.length => ".length"

/-- The string a list of path segments contributes. -/
def renderSegs : List PathSeg → String
  | [] => ""
  | s :: rest => renderSeg s ++ renderSegs rest

/-- `q` lies in the subtree of paths rooted at `p`: it is `p` itself or
`p` extended by a sequence of path segments. -/
def extendsPath (p q : String) : Prop :=
  ∃ segs : List PathSeg, q = p ++ renderSegs segs

lemma jsonPairInduction (P : JsonVal → JsonVal → Prop)
    (step : ∀ g b, (∀ g2 b2, sizeOf g2 + sizeOf b2 < sizeOf g + sizeOf b → P g2 b2) → P g b) :
    ∀ g b, P g b := by
  have main : ∀ n g b, sizeOf g + sizeOf b ≤ n → P g b := by
    intro n
    induction n with
    | zero =>
      intro g b hle
      exact step g b (fun g2 b2 hlt => absurd (Nat.lt_of_lt_of_le hlt hle) (by omega))
    | succ n ih =>
      intro g b hle
      exact step g b (fun g2 b2 hlt => ih g2 b2 (by omega))
  exact fun g b => main (sizeOf g + sizeOf b) g b (Nat.le_refl _)

lemma compareArrays_refl : ∀ (xs : List JsonVal),
    (∀ x ∈ xs, ∀ path, compare_json_recursive x x path = []) →
    ∀ i path, compareArrays xs xs i path = [] := by
  intro xs
  induction xs with
  | nil =>
    intro _ i path
    rw [compareArrays.eq_def]
  | cons x rest ihr =>
    intro h i path
    rw [compareArrays.eq_def]
    simp only [List.nil_eq, List.append_eq_nil]
    rw [h x (by simp), ihr (fun y hy p => h y (by simp [hy]) p)]
    simp

lemma compareKey_none_none (gk bk : List (String × JsonVal)) (k : String) (path : String)
    (hg : List.lookup k gk = none) (hb : List.lookup k bk = none) :
    compareKey gk bk k path = [] := by
  rw [compareKey.eq_def]
  split
  · rename_i h1 h2
    rw [hb] at h2
    cases h2
  · rename_i h1 h2
    rw [hg] at h1
    cases h1
  · rename_i h1 h2
    rw [hg] at h1
    cases h1
  · rfl

lemma compareKey_missing_geth (gk bk : List (String × JsonVal)) (k : String) (path : String)
    (bv : JsonVal) (hg : List.lookup k gk = none) (hb : List.lookup k bk = some bv) :
    compareKey gk bk k path = [⟨path ++ "." ++ k, JsonVal.null, bv, "missing_in_geth"⟩] := by
  rw [compareKey.eq_def]
  split
  · rename_i h1 h2
    rw [hb] at h2
    cases h2
    rfl
  · rename_i h1 h2
    rw [hg] at h1
    cases h1
  · rename_i h1 h2
    rw [hg] at h1
    cases h1
  · rename_i h1 h2
    rw [hb] at h2
    cases h2

lemma compareKey_missing_besu (gk bk : List (String × JsonVal)) (k : String) (path : String)
    (gv : JsonVal) (hg : List.lookup k gk = some gv) (hb : List.lookup k bk = none) :
    compareKey gk bk k path = [⟨path ++ "." ++ k, gv, JsonVal.null, "missing_in_besu"⟩] := by
  rw [compareKey.eq_def]
  split
  · rename_i h1 h2
    rw [hb] at h2
    cases h2
  · rename_i h1 h2
    rw [hg] at h1
    cases h1
    rfl
  · rename_i h1 h2
    rw [hb] at h2
    cases h2
  · rename_i h1 h2
    rw [hg] at h1
    cases h1

lemma compareKey_both (gk bk : List (String × JsonVal)) (k : String) (path : String)
    (gv bv : JsonVal) (hg : List.lookup k gk = some gv) (hb : List.lookup k bk = some bv) :
    compareKey gk bk k path = compare_json_recursive gv bv (path ++ "." ++ k) := by
  rw [compareKey.eq_def]
  split
  · rename_i h1 h2
    rw [hg] at h1
    cases h1
  · rename_i h1 h2
    rw [hb] at h2
    cases h2
  · rename_i h1 h2
    rw [hg] at h1
    rw [hb] at h2
    cases h1
    cases h2
    rfl
  · rename_i h1 h2
    rw [hg] at h1
    cases h1

lemma compareObjectsNil (gk bk : List (String × JsonVal)) (path : String) :
    compareObjects gk bk [] path = [] := by
  rw [compareObjects.eq_def]

lemma compareObjectsCons (gk bk : List (String × JsonVal)) (k : String) (ks : List String)
    (path : String) :
    compareObjects gk bk (k :: ks) path
      = compareKey gk bk k path ++ compareObjects gk bk ks path := by
  rw [compareObjects.eq_def]

lemma compareObjects_refl (kvs : List (String × JsonVal))
    (h : ∀ v, sizeOf v < sizeOf kvs → ∀ path, compare_json_recursive v v path = []) :
    ∀ (keys : List String) (path : String), compareObjects kvs kvs keys path = [] := by
  intro keys
  induction keys with
  | nil =>
    intro path
    exact compareObjectsNil kvs kvs path
  | cons k ks ihk =>
    intro path
    rw [compareObjectsCons, ihk path, List.append_nil]
    cases hc : List.lookup k kvs with
    | none => exact compareKey_none_none kvs kvs k path hc hc
    | some v =>
      rw [compareKey_both kvs kvs k path v v hc hc]
      exact h v (sizeOf_lookup_lt hc) _

/-- Comparing any tree against itself yields no difference records. -/
lemma compare_refl (g : JsonVal) : ∀ path, compare_json_recursive g g path = [] := by
  have main : ∀ g b, g = b → ∀ path, compare_json_recursive g b path = [] := by
    refine jsonPairInduction _ ?_
    intro g b ih heq path
    subst heq
    rw [compare_json_recursive.eq_def]
    cases g with
    | null => simp [isNull]
    | bool x => simp [isNull, typeTag, scalarEq]
    | num x => simp [isNull, typeTag, scalarEq]
    | str s => simp [isNull, typeTag, scalarEq]
    | arr xs =>
      simp only [isNull, typeTag, Bool.and_self, Bool.false_eq_true, if_false, ne_eq,
        not_true_eq_false]
      have harr : ∀ x ∈ xs, ∀ p, compare_json_recursive x x p = [] := by
        intro x hx p
        refine ih x x ?_ rfl p
        have := List.sizeOf_lt_of_mem hx
        simp
        omega
      simp [compareArrays_refl xs harr 0 path]
    | obj kvs =>
      simp only [isNull, typeTag, Bool.and_self, Bool.false_eq_true, if_false, ne_eq,
        not_true_eq_false]
      have hobj : ∀ v, sizeOf v < sizeOf kvs → ∀ p, compare_json_recursive v v p = [] := by
        intro v hv p
        refine ih v v ?_ rfl p
        simp
        omega
      simp [compareObjects_refl kvs hobj _ path]
  exact fun path => main g g rfl path

/-- C5: comparing any well-formed tree against itself yields an empty
difference list. -/
theorem claim5_reflexivity (X : JsonVal) : compare_json_recursive X X "root" = [] :=
  compare_refl X "root"

/-- C3: comparing the nested-mismatch scenario trees with normalization
enabled produces exactly one value_mismatch record at
root.calls[0].gasUsed with values "0x5208" / "0x5209", and the match
flag is false. -/
theorem claim3_nested_mismatch_scenario :
    (compare_call_traces
      (JsonVal.obj [("type", JsonVal.str "CALL"),
        ("calls", JsonVal.arr [JsonVal.obj [("gasUsed", JsonVal.str "0x5208")]])])
      (JsonVal.obj [("type", JsonVal.str "CALL"),
        ("calls", JsonVal.arr [JsonVal.obj [("gasUsed", JsonVal.str "0x5209")]])])
      true).differences
      = [⟨"root.calls[0].gasUsed", JsonVal.str "0x5208", JsonVal.str "0x5209",
          "value_mismatch"⟩]
    ∧ (compare_call_traces
      (JsonVal.obj [("type", JsonVal.str "CALL"),
        ("calls", JsonVal.arr [JsonVal.obj [("gasUsed", JsonVal.str "0x5208")]])])
      (JsonVal.obj [("type", JsonVal.str "CALL"),
        ("calls", JsonVal.arr [JsonVal.obj [("gasUsed", JsonVal.str "0x5209")]])])
      true).is_match = false := by
  constructor <;>
    simp [compare_call_traces, normalize_call_trace.eq_def, normalizeFieldsAux.eq_def,
      normFieldValue.eq_def, callsValue.eq_def, normalizeCallsList.eq_def, normalize_fields,
      compare_json_recursive.eq_def, compareObjects.eq_def, compareKey.eq_def,
      compareArrays.eq_def, unionKeys,
      isNull, typeTag, isIntOrStr, pyStr, scalarEq, strLe, charListLe, List.insertionSort,
      List.orderedInsert, List.lookup, List.dedup, List.pwFilter,
      (show toString (0 : Nat) = "0" from rfl)]

/-- C8: the comparison entry point does not hex-normalize: "0x0" vs
"0x00" under the gas key yields exactly one value_mismatch (match flag
false), even though the opt-in transform normalize_hex_value maps both
strings to the same value. -/
theorem claim8_hex_opaque :
    (compare_call_traces (JsonVal.obj [("gas", JsonVal.str "0x0")])
        (JsonVal.obj [("gas", JsonVal.str "0x00")]) true).differences
      = [⟨"root.gas", JsonVal.str "0x0", JsonVal.str "0x00", "value_mismatch"⟩]
    ∧ (compare_call_traces (JsonVal.obj [("gas", JsonVal.str "0x0")])
        (JsonVal.obj [("gas", JsonVal.str "0x00")]) true).is_match = false
    ∧ normalize_hex_value (JsonVal.str "0x00") = normalize_hex_value (JsonVal.str "0x0") := by
  refine ⟨?_, ?_, ?_⟩ <;>
    simp [compare_call_traces, normalize_call_trace.eq_def, normalizeFieldsAux.eq_def,
      normFieldValue.eq_def, normalizeCallsList.eq_def, normalize_fields, normalize_hex_value,
      compare_json_recursive.eq_def, compareObjects.eq_def, compareKey.eq_def,
      compareArrays.eq_def, unionKeys,
      isNull, typeTag, isIntOrStr, pyStr, scalarEq, strLe, charListLe, List.insertionSort,
      List.orderedInsert, List.lookup, List.dedup, List.pwFilter]

lemma jsonSizeInduction (P : JsonVal → Prop)
    (step : ∀ g, (∀ g2, sizeOf g2 < sizeOf g → P g2) → P g) : ∀ g, P g := by
  have main : ∀ n g, sizeOf g ≤ n → P g := by
    intro n
    induction n with
    | zero =>
      intro g hle
      exact step g (fun g2 hlt => absurd (Nat.lt_of_lt_of_le hlt hle) (by omega))
    | succ n ih =>
      intro g hle
      exact step g (fun g2 hlt => ih g2 (by omega))
  exact fun g => main (sizeOf g) g (Nat.le_refl _)

lemma normalizeFieldsAux_eq_filterMap (kvs : List (String × JsonVal)) :
    ∀ fields, normalizeFieldsAux kvs fields
      = fields.filterMap (fun f => (normFieldValue kvs f).map (fun v => (f, v))) := by
  intro fields
  induction fields with
  | nil =>
    rw [normalizeFieldsAux.eq_def]
    rfl
  | cons f fs ih =>
    rw [normalizeFieldsAux.eq_def]
    simp only [List.filterMap_cons]
    cases hn : normFieldValue kvs f <;> simp [hn, ih]

lemma map_fst_filterMap (Fv : String → Option JsonVal) :
    ∀ fs : List String,
      (fs.filterMap (fun f => (Fv f).map (fun v => (f, v)))).map Prod.fst
        = fs.filter (fun f => (Fv f).isSome) := by
  intro fs
  induction fs with
  | nil => rfl
  | cons f rest ih =>
    rw [List.filterMap_cons, List.filter_cons]
    cases h : Fv f <;> simp [h, ih]

lemma lookup_eq_none_of_not_mem_fst (l : List (String × JsonVal)) (a : String)
    (h : a ∉ l.map Prod.fst) : List.lookup a l = none := by
  induction l with
  | nil => rfl
  | cons p rest ih =>
    rw [List.lookup]
    split
    · rename_i heq
      exact absurd (by simp [eq_of_beq heq]) h
    · exact ih (fun hm => h (by simp [hm]))

lemma lookup_filterMap_norm (Fv : String → Option JsonVal) :
    ∀ fs : List String, fs.Nodup → ∀ f ∈ fs,
      List.lookup f (fs.filterMap (fun g => (Fv g).map (fun v => (g, v)))) = Fv f := by
  intro fs
  induction fs with
  | nil =>
    intro _ f hf
    cases hf
  | cons g rest ih =>
    intro hnd f hf
    rw [List.filterMap_cons]
    cases hg : Fv g with
    | none =>
      simp only [Option.map_none']
      rcases List.mem_cons.mp hf with rfl | hfr
      · rw [hg, lookup_eq_none_of_not_mem_fst]
        rw [map_fst_filterMap]
        intro hmem
        exact (List.nodup_cons.mp hnd).1 (List.mem_of_mem_filter hmem)
      · exact ih (List.nodup_cons.mp hnd).2 f hfr
    | some v =>
      simp only [Option.map_some']
      rw [List.lookup]
      split
      · rename_i heq
        rw [eq_of_beq heq, hg]
      · rename_i hne
        rcases List.mem_cons.mp hf with rfl | hfr
        · simp at hne
        · exact ih (List.nodup_cons.mp hnd).2 f hfr

lemma normalize_fields_nodup : normalize_fields.Nodup := by
  rw [normalize_fields]
  decide

/-- Structure of `normalize_call_trace` on a mapping: the output is the
list of recognized fields that survive the per-field rule
`normFieldValue`, in the fixed field order, each paired with the value
the rule produces. -/
lemma normalize_obj_characterization (kvs : List (String × JsonVal)) :
    ∃ out, normalize_call_trace (JsonVal.obj kvs) = JsonVal.obj out
      ∧ out.map Prod.fst = normalize_fields.filter (fun f => (normFieldValue kvs f).isSome)
      ∧ ∀ f ∈ normalize_fields, List.lookup f out = normFieldValue kvs f := by
  refine ⟨normalizeFieldsAux kvs normalize_fields, by rw [normalize_call_trace.eq_def], ?_, ?_⟩
  · rw [normalizeFieldsAux_eq_filterMap, map_fst_filterMap]
  · intro f hf
    rw [normalizeFieldsAux_eq_filterMap]
    exact lookup_filterMap_norm _ _ normalize_fields_nodup f hf

/-- C2 counterexample: the claim requires a recognized field to be
dropped whenever its value is "null/empty", but the source only drops
`None` values (for non-`calls` fields): an empty-string `input` value is
empty yet is kept unchanged in the normalized output. -/
theorem claim2_counterexample :
    specIsNullOrEmpty (JsonVal.str "") = true ∧
    normalize_call_trace (JsonVal.obj [("input", JsonVal.str "")])
      = JsonVal.obj [("input", JsonVal.str "")] := by
  constructor
  · rfl
  · simp [normalize_call_trace.eq_def, normalizeFieldsAux.eq_def, normFieldValue.eq_def,
      callsValue.eq_def, normalize_fields, isNull, List.lookup]

/-- C2 (amended): for every input mapping, normalize returns a new
mapping that contains only the recognized fields in the fixed order
given by `normalize_fields`, and a recognized field appears in the
output if and only if the per-field rule keeps it: a non-`calls` field
is kept (with its value unchanged, empty or not) iff it is present with
a non-null value, and the `calls` field is kept iff it is present with a
non-empty sequence value, in which case every element is recursively
normalized; a `calls` value that is an empty sequence, or not a
sequence, is dropped.  (`normFieldValue` is exactly this rule.) -/
theorem claim2_amended (kvs : List (String × JsonVal)) :
    ∃ out, normalize_call_trace (JsonVal.obj kvs) = JsonVal.obj out
      ∧ out.map Prod.fst = normalize_fields.filter (fun f => (normFieldValue kvs f).isSome)
      ∧ ∀ f ∈ normalize_fields, List.lookup f out = normFieldValue kvs f :=
  normalize_obj_characterization kvs

lemma callsValue_arr (cs : List JsonVal) :
    callsValue (JsonVal.arr cs)
      = if cs.length > 0 then some (JsonVal.arr (normalizeCallsList cs)) else none := by
  rw [callsValue.eq_def]

lemma callsValue_not_arr (v : JsonVal) (h : ∀ cs, v ≠ JsonVal.arr cs) : callsValue v = none := by
  rw [callsValue.eq_def]
  cases v with
  | arr cs => exact absurd rfl (h cs)
  | null => rfl
  | bool x => rfl
  | num n => rfl
  | str s => rfl
  | obj o => rfl

lemma callsValue_some (w v : JsonVal) (h : callsValue w = some v) :
    ∃ cs, w = JsonVal.arr cs ∧ 0 < cs.length ∧ v = JsonVal.arr (normalizeCallsList cs) := by
  cases w with
  | arr cs =>
    rw [callsValue_arr] at h
    by_cases hlen : cs.length > 0
    · rw [if_pos hlen] at h
      cases h
      exact ⟨cs, rfl, hlen, rfl⟩
    · rw [if_neg hlen] at h
      cases h
  | null =>
    rw [callsValue_not_arr _ (fun cs hh => JsonVal.noConfusion hh)] at h
    cases h
  | bool x =>
    rw [callsValue_not_arr _ (fun cs hh => JsonVal.noConfusion hh)] at h
    cases h
  | num n =>
    rw [callsValue_not_arr _ (fun cs hh => JsonVal.noConfusion hh)] at h
    cases h
  | str s2 =>
    rw [callsValue_not_arr _ (fun cs hh => JsonVal.noConfusion hh)] at h
    cases h
  | obj o =>
    rw [callsValue_not_arr _ (fun cs hh => JsonVal.noConfusion hh)] at h
    cases h

lemma normFieldValue_calls_nonlist (kvs : List (String × JsonVal)) (v : JsonVal)
    (hpresent : List.lookup "calls" kvs = some v) (hnotnull : isNull v = false)
    (hnotseq : ∀ cs, v ≠ JsonVal.arr cs) : normFieldValue kvs "calls" = none := by
  rw [normFieldValue.eq_def]
  split
  · rename_i v2 hl
    rw [hpresent] at hl
    cases hl
    rw [hnotnull, if_neg (by simp), if_pos rfl, callsValue_not_arr v hnotseq]
  · rfl

/-- C9: when the `calls` field is present with a non-null value that is
not a sequence, normalize drops the `calls` key entirely: it appears
neither unchanged nor transformed in the output mapping. -/
theorem claim9_calls_nonlist_dropped (kvs : List (String × JsonVal)) (v : JsonVal)
    (hpresent : List.lookup "calls" kvs = some v) (hnotnull : isNull v = false)
    (hnotseq : ∀ cs, v ≠ JsonVal.arr cs) :
    ∃ out, normalize_call_trace (JsonVal.obj kvs) = JsonVal.obj out
      ∧ "calls" ∉ out.map Prod.fst ∧ List.lookup "calls" out = none := by
  obtain ⟨out, hout, hkeys, hlook⟩ := normalize_obj_characterization kvs
  have hnone := normFieldValue_calls_nonlist kvs v hpresent hnotnull hnotseq
  refine ⟨out, hout, ?_, ?_⟩
  · rw [hkeys]
    intro hmem
    have := List.of_mem_filter hmem
    rw [hnone] at this
    cases this
  · rw [hlook "calls" (by rw [normalize_fields]; simp), hnone]

/-- C9 witness: the concrete mapping with `calls` bound to the number 5
normalizes to a mapping without a `calls` key. -/
theorem claim9_witness :
    ∃ out, normalize_call_trace (JsonVal.obj [("calls", JsonVal.num 5)]) = JsonVal.obj out
      ∧ "calls" ∉ out.map Prod.fst ∧ List.lookup "calls" out = none :=
  claim9_calls_nonlist_dropped [("calls", JsonVal.num 5)] (JsonVal.num 5) rfl rfl
    (fun cs h => JsonVal.noConfusion h)

lemma normalizeCallsList_nil : normalizeCallsList [] = [] := by
  rw [normalizeCallsList.eq_def]

lemma normalizeCallsList_cons (c : JsonVal) (cs : List JsonVal) :
    normalizeCallsList (c :: cs) = normalize_call_trace c :: normalizeCallsList cs := by
  rw [normalizeCallsList.eq_def]

lemma normalizeCallsList_length : ∀ cs : List JsonVal,
    (normalizeCallsList cs).length = cs.length := by
  intro cs
  induction cs with
  | nil => rw [normalizeCallsList_nil]
  | cons c rest ih => rw [normalizeCallsList_cons, List.length_cons, List.length_cons, ih]

lemma normalizeCallsList_idem : ∀ cs : List JsonVal,
    (∀ c ∈ cs, normalize_call_trace (normalize_call_trace c) = normalize_call_trace c) →
    normalizeCallsList (normalizeCallsList cs) = normalizeCallsList cs := by
  intro cs
  induction cs with
  | nil =>
    intro _
    rw [normalizeCallsList_nil]
    exact normalizeCallsList_nil
  | cons c rest ih =>
    intro h
    rw [normalizeCallsList_cons, normalizeCallsList_cons, h c (by simp),
      ih (fun x hx => h x (by simp [hx]))]

lemma normalize_nonobj (t : JsonVal) (h : typeTag t ≠ 5) : normalize_call_trace t = t := by
  rw [normalize_call_trace.eq_def]
  cases t with
  | obj kvs => exact absurd (show typeTag (JsonVal.obj kvs) = 5 from rfl) h
  | null => rfl
  | bool x => rfl
  | num n => rfl
  | str s => rfl
  | arr xs => rfl

lemma normalize_obj_eq (kvs : List (String × JsonVal)) :
    normalize_call_trace (JsonVal.obj kvs)
      = JsonVal.obj (normalizeFieldsAux kvs normalize_fields) := by
  rw [normalize_call_trace.eq_def]

lemma filterMapCongr {α β : Type} (F G : α → Option β) :
    ∀ l : List α, (∀ a ∈ l, F a = G a) → l.filterMap F = l.filterMap G := by
  intro l
  induction l with
  | nil =>
    intro _
    rfl
  | cons a rest ih =>
    intro h
    rw [List.filterMap_cons, List.filterMap_cons, h a (by simp),
      ih (fun x hx => h x (by simp [hx]))]

lemma normFieldValue_isNull_false (kvs : List (String × JsonVal)) (f : String) (v : JsonVal)
    (h : normFieldValue kvs f = some v) : isNull v = false := by
  rw [normFieldValue.eq_def] at h
  split at h
  · split at h
    · cases h
    · rename_i hnw
      split at h
      · obtain ⟨cs, _, _, rfl⟩ := callsValue_some _ _ h
        rfl
      · cases h
        exact Bool.not_eq_true _ ▸ hnw
  · cases h

lemma normFieldValue_calls_spec (kvs : List (String × JsonVal)) (v : JsonVal)
    (h : normFieldValue kvs "calls" = some v) :
    ∃ cs, List.lookup "calls" kvs = some (JsonVal.arr cs) ∧ 0 < cs.length ∧
      v = JsonVal.arr (normalizeCallsList cs) := by
  rw [normFieldValue.eq_def] at h
  split at h
  · rename_i w hl
    split at h
    · cases h
    · rw [if_pos rfl] at h
      obtain ⟨cs, rfl, hlen, rfl⟩ := callsValue_some _ _ h
      exact ⟨cs, hl, hlen, rfl⟩
  · cases h

lemma normFieldValue_idem (kvs out : List (String × JsonVal)) (f : String)
    (ihsmall : ∀ g2 : JsonVal, sizeOf g2 < sizeOf kvs →
      normalize_call_trace (normalize_call_trace g2) = normalize_call_trace g2)
    (hlook : List.lookup f out = normFieldValue kvs f) :
    normFieldValue out f = normFieldValue kvs f := by
  cases hn : normFieldValue kvs f with
  | none =>
    rw [hn] at hlook
    rw [normFieldValue.eq_def]
    split
    · rename_i w hl
      rw [hlook] at hl
      cases hl
    · rfl
  | some v =>
    rw [hn] at hlook
    rw [normFieldValue.eq_def]
    split
    · rename_i w hl
      rw [hlook] at hl
      cases hl
      have hnullv := normFieldValue_isNull_false kvs f v hn
      rw [hnullv]
      simp only [Bool.false_eq_true, if_false]
      by_cases hc : f = "calls"
      · subst hc
        rw [if_pos rfl]
        obtain ⟨cs, hl2, hlen, rfl⟩ := normFieldValue_calls_spec kvs v hn
        rw [callsValue_arr]
        rw [if_pos (by rw [normalizeCallsList_length]; exact hlen)]
        have hsmall : ∀ c ∈ cs, normalize_call_trace (normalize_call_trace c)
            = normalize_call_trace c := by
          intro c hcmem
          refine ihsmall c ?_
          have h1 : sizeOf c < sizeOf cs := List.sizeOf_lt_of_mem hcmem
          have h2 : sizeOf (JsonVal.arr cs) < sizeOf kvs := sizeOf_lookup_lt hl2
          simp at h2
          omega
        rw [normalizeCallsList_idem cs hsmall]
      · rw [if_neg hc]
    · rename_i hl
      rw [hlook] at hl
      cases hl

/-- Applying normalize twice gives the same result as applying it once. -/
lemma normalize_call_trace_idem : ∀ t, normalize_call_trace (normalize_call_trace t)
    = normalize_call_trace t := by
  refine jsonSizeInduction _ ?_
  intro t ih
  cases t with
  | null =>
    have h := normalize_nonobj JsonVal.null (by simp [typeTag])
    rw [h]
    exact h
  | bool x =>
    have h := normalize_nonobj (JsonVal.bool x) (by simp [typeTag])
    rw [h]
    exact h
  | num n =>
    have h := normalize_nonobj (JsonVal.num n) (by simp [typeTag])
    rw [h]
    exact h
  | str s =>
    have h := normalize_nonobj (JsonVal.str s) (by simp [typeTag])
    rw [h]
    exact h
  | arr xs =>
    have h := normalize_nonobj (JsonVal.arr xs) (by simp [typeTag])
    rw [h]
    exact h
  | obj kvs =>
    rw [normalize_obj_eq kvs, normalize_obj_eq]
    congr 1
    have hout := normalizeFieldsAux_eq_filterMap kvs normalize_fields
    rw [normalizeFieldsAux_eq_filterMap]
    conv_rhs => rw [hout]
    apply filterMapCongr
    intro f hf
    have hlook : List.lookup f (normalizeFieldsAux kvs normalize_fields)
        = normFieldValue kvs f := by
      rw [hout]
      exact lookup_filterMap_norm _ _ normalize_fields_nodup f hf
    have hsize : ∀ g2 : JsonVal, sizeOf g2 < sizeOf kvs →
        normalize_call_trace (normalize_call_trace g2) = normalize_call_trace g2 := by
      intro g2 hg2
      refine ih g2 ?_
      simp
      omega
    rw [normFieldValue_idem kvs _ f hsize hlook]

/-- C7: applying normalize twice gives the same result as applying it
once, for every tree. -/
theorem claim7_normalize_idempotent (X : JsonVal) :
    normalize_call_trace (normalize_call_trace X) = normalize_call_trace X :=
  normalize_call_trace_idem X

/-- Unfolding of the comparator on two non-null values of differing
runtime types: the int/str stringification lenience, or a single
type_mismatch record. -/
lemma compare_type_differ (g b : JsonVal) (path : String)
    (hg : isNull g = false) (hb : isNull b = false) (hty : typeTag g ≠ typeTag b) :
    compare_json_recursive g b path =
      if isIntOrStr g && isIntOrStr b then
        if pyStr g = pyStr b then [] else [⟨path, g, b, "value_mismatch"⟩]
      else [⟨path, g, b, "type_mismatch"⟩] := by
  rw [compare_json_recursive.eq_def]
  rw [hg, hb]
  simp only [Bool.false_and, Bool.and_false, Bool.false_eq_true, if_false, ne_eq, hty,
    not_false_eq_true, if_true]

/-- C1 counterexample: the claim classifies differing-type pairs by the
spec's value categories, which separate booleans from numbers.  But the
source's category test is `isinstance(x, (int, str))`, and a Python
`bool` is an `int`: comparing the boolean `true` against the string
`"True"` (differing runtime types, not both in the spec's
number-or-string category) emits no record at all instead of the
claimed single `type_mismatch`.  Likewise a null against a number
(differing runtime types) emits a missing record, not a
`type_mismatch`. -/
theorem claim1_counterexample :
    typeTag (JsonVal.bool true) ≠ typeTag (JsonVal.str "True") ∧
    specNumberOrString (JsonVal.bool true) = false ∧
    compare_json_recursive (JsonVal.bool true) (JsonVal.str "True") "root" = [] ∧
    typeTag JsonVal.null ≠ typeTag (JsonVal.num 5) ∧
    compare_json_recursive JsonVal.null (JsonVal.num 5) "root"
      = [⟨"root", JsonVal.null, JsonVal.num 5, "missing_in_geth"⟩] := by
  refine ⟨by decide, rfl, ?_, by decide, ?_⟩ <;>
    simp [compare_json_recursive.eq_def, isNull, typeTag, isIntOrStr, pyStr]

/-- C1 (amended): for every pair of non-null values compared at a path
whose runtime types differ: if both values fall into the implementation's
int-or-string category (numbers, strings, and booleans, since Python's
`bool` is a subclass of `int`), the comparator stringifies both
(booleans as `True`/`False`) and compares textually, emitting no record
when the strings are equal and exactly one `value_mismatch` record at
that path when they are unequal; in every other differing-type
combination it emits exactly one `type_mismatch` record at that path; in
either case it returns without recursing into the two values.  (A null
on either side is instead handled by the missing-record rules before the
type test.) -/
theorem claim1_amended (g b : JsonVal) (path : String)
    (hg : isNull g = false) (hb : isNull b = false) (hty : typeTag g ≠ typeTag b) :
    compare_json_recursive g b path =
      if isIntOrStr g && isIntOrStr b then
        if pyStr g = pyStr b then [] else [⟨path, g, b, "value_mismatch"⟩]
      else [⟨path, g, b, "type_mismatch"⟩] :=
  compare_type_differ g b path hg hb hty

/-- C1 witness: the number `5` against the string `"5"` have differing
runtime types, both in the int-or-string category, with equal
stringifications, so no record is emitted. -/
theorem claim1_witness :
    compare_json_recursive (JsonVal.num 5) (JsonVal.str "5") "root" = [] := by
  have h := claim1_amended (JsonVal.num 5) (JsonVal.str "5") "root" rfl rfl (by decide)
  rw [h]
  simp [isIntOrStr, pyStr, (show toString (5 : Int) = "5" from rfl)]

lemma flatMapCongrList {α β : Type} (F G : α → List β) :
    ∀ l : List α, (∀ a ∈ l, F a = G a) → l.flatMap F = l.flatMap G := by
  intro l
  induction l with
  | nil =>
    intro _
    rfl
  | cons a rest ih =>
    intro h
    rw [List.flatMap_cons, List.flatMap_cons, h a (by simp),
      ih (fun x hx => h x (by simp [hx]))]

lemma flatMapOfMap {α β γ : Type} (g : α → β) (f : β → List γ) :
    ∀ l : List α, (l.map g).flatMap f = l.flatMap (fun a => f (g a)) := by
  intro l
  induction l with
  | nil => rfl
  | cons a rest ih => simp only [List.map_cons, List.flatMap_cons, ih]

/-- Unfolding of the comparator on two sequences: the conditional length
record followed by the element loop. -/
lemma compare_arr_eq (gs bs : List JsonVal) (path : String) :
    compare_json_recursive (JsonVal.arr gs) (JsonVal.arr bs) path =
      (if gs.length ≠ bs.length then
        [⟨path ++ ".length", JsonVal.num gs.length, JsonVal.num bs.length, "value_mismatch"⟩]
       else []) ++ compareArrays gs bs 0 path := by
  rw [compare_json_recursive.eq_def]
  simp [isNull, typeTag]

/-- The element loop visits exactly the indices below the shorter
length, extending the path by the bracketed index. -/
lemma compareArrays_eq_flatMap (gs : List JsonVal) : ∀ (bs : List JsonVal) (i : Nat)
    (path : String),
    compareArrays gs bs i path
      = (List.range (min gs.length bs.length)).flatMap
          (fun j => compare_json_recursive (gs.getD j JsonVal.null) (bs.getD j JsonVal.null)
            (path ++ "[" ++ toString (i + j) ++ "]")) := by
  induction gs with
  | nil =>
    intro bs i path
    rw [compareArrays.eq_def]
    cases bs <;> simp
  | cons g gs2 ih =>
    intro bs i path
    cases bs with
    | nil =>
      rw [compareArrays.eq_def]
      simp
    | cons b bs2 =>
      rw [compareArrays.eq_def]
      simp only [List.length_cons, Nat.succ_min_succ, List.range_succ_eq_map,
        List.flatMap_cons, List.getD_cons_zero, Nat.add_zero, flatMapOfMap]
      rw [ih bs2 (i + 1) path]
      congr 1
      apply flatMapCongrList
      intro j hj
      simp only [List.getD_cons_succ]
      rw [show i + (j + 1) = i + 1 + j by omega]

/-- C4: on two sequences the comparator emits exactly one
value_mismatch at path.length carrying the two lengths when (and only
when) the lengths differ, then recurses pairwise over the indices below
the shorter length with the path extended by the bracketed index, and
emits no record for trailing elements; in particular [a,b,c] against
[a,b] yields exactly the length record with values 3 and 2. -/
theorem claim4_sequence_length_divergence (gs bs : List JsonVal) (path : String)
    (a b c : JsonVal) :
    (compare_json_recursive (JsonVal.arr gs) (JsonVal.arr bs) path =
      (if gs.length = bs.length then []
       else [⟨path ++ ".length", JsonVal.num gs.length, JsonVal.num bs.length,
         "value_mismatch"⟩])
      ++ (List.range (min gs.length bs.length)).flatMap
          (fun j => compare_json_recursive (gs.getD j JsonVal.null) (bs.getD j JsonVal.null)
            (path ++ "[" ++ toString j ++ "]")))
    ∧ compare_json_recursive (JsonVal.arr [a, b, c]) (JsonVal.arr [a, b]) path =
        [⟨path ++ ".length", JsonVal.num 3, JsonVal.num 2, "value_mismatch"⟩] := by
  constructor
  · rw [compare_arr_eq, compareArrays_eq_flatMap, ite_not]
    congr 1
    apply flatMapCongrList
    intro j hj
    rw [Nat.zero_add]
  · rw [compare_arr_eq]
    rw [if_pos (by simp)]
    rw [compareArrays.eq_def]
    simp only [compare_refl, List.nil_append]
    rw [compareArrays.eq_def]
    simp only [compare_refl, List.nil_append]
    rw [compareArrays.eq_def]
    simp

lemma charListLe_total : ∀ as bs : List Char, charListLe as bs = true ∨ charListLe bs as = true := by
  intro as
  induction as with
  | nil =>
    intro bs
    exact Or.inl rfl
  | cons a as2 ih =>
    intro bs
    cases bs with
    | nil => exact Or.inr rfl
    | cons b bs2 =>
      by_cases hab : a < b
      · left
        simp [charListLe, hab]
      · by_cases hba : b < a
        · right
          simp [charListLe, hba]
        · rcases ih bs2 with h | h
          · left
            simp [charListLe, hab, hba, h]
          · right
            simp [charListLe, hab, hba, h]

lemma charListLe_trans : ∀ as bs cs : List Char, charListLe as bs = true →
    charListLe bs cs = true → charListLe as cs = true := by
  intro as
  induction as with
  | nil =>
    intro bs cs _ _
    rfl
  | cons a as2 ih =>
    intro bs cs h1 h2
    cases bs with
    | nil => simp [charListLe] at h1
    | cons b bs2 =>
      cases cs with
      | nil => simp [charListLe] at h2
      | cons c cs2 =>
        rw [charListLe] at h1 h2 ⊢
        by_cases hab : a < b
        · by_cases hbc : b < c
          · simp [lt_trans hab hbc]
          · by_cases hcb : c < b
            · simp [hbc, hcb] at h2
            · have hbceq : b = c := le_antisymm (not_lt.mp hcb) (not_lt.mp hbc)
              subst hbceq
              simp [hab]
        · by_cases hba : b < a
          · simp [hab, hba] at h1
          · have habeq : a = b := le_antisymm (not_lt.mp hba) (not_lt.mp hab)
            subst habeq
            simp only [lt_irrefl, if_false] at h1
            by_cases hac : a < c
            · simp [hac]
            · by_cases hca : c < a
              · simp [hac, hca] at h2
              · have haceq : a = c := le_antisymm (not_lt.mp hca) (not_lt.mp hac)
                subst haceq
                simp only [lt_irrefl, if_false] at h2 ⊢
                exact ih bs2 cs2 h1 h2

lemma charListLe_antisymm : ∀ as bs : List Char, charListLe as bs = true →
    charListLe bs as = true → as = bs := by
  intro as
  induction as with
  | nil =>
    intro bs h1 h2
    cases bs with
    | nil => rfl
    | cons b bs2 => simp [charListLe] at h2
  | cons a as2 ih =>
    intro bs h1 h2
    cases bs with
    | nil => simp [charListLe] at h1
    | cons b bs2 =>
      rw [charListLe] at h1 h2
      by_cases hab : a < b
      · simp [hab, lt_asymm hab] at h2
      · by_cases hba : b < a
        · simp [hab, hba] at h1
        · have habeq : a = b := le_antisymm (not_lt.mp hba) (not_lt.mp hab)
          subst habeq
          simp only [lt_irrefl, if_false] at h1 h2
          rw [ih bs2 h1 h2]

instance strLeIsTotal : IsTotal String (fun a b => strLe a b = true) :=
  ⟨fun a b => charListLe_total a.data b.data⟩

instance strLeIsTrans : IsTrans String (fun a b => strLe a b = true) :=
  ⟨fun a b c => charListLe_trans a.data b.data c.data⟩

instance strLeIsAntisymm : IsAntisymm String (fun a b => strLe a b = true) :=
  ⟨fun a b h1 h2 => by
    have hd := charListLe_antisymm a.data b.data h1 h2
    cases a
    cases b
    exact congrArg String.mk hd⟩

/-- The sorted union of the keys of two mappings does not depend on the
order of the two mappings. -/
lemma unionKeys_comm (gk bk : List (String × JsonVal)) :
    unionKeys gk bk = unionKeys bk gk := by
  have hperm : ((gk.map Prod.fst ++ bk.map Prod.fst).dedup).Perm
      ((bk.map Prod.fst ++ gk.map Prod.fst).dedup) := by
    refine (List.perm_ext_iff_of_nodup (List.nodup_dedup _) (List.nodup_dedup _)).mpr ?_
    intro a
    simp only [List.mem_dedup, List.mem_append]
    tauto
  exact List.eq_of_perm_of_sorted
    ((List.perm_insertionSort _ _).trans (hperm.trans (List.perm_insertionSort _ _).symm))
    (List.sorted_insertionSort _ _) (List.sorted_insertionSort _ _)

lemma isNull_eq_true_iff (v : JsonVal) : isNull v = true ↔ v = JsonVal.null := by
  cases v <;> simp [isNull]

lemma compare_null_null (path : String) :
    compare_json_recursive JsonVal.null JsonVal.null path = [] := by
  rw [compare_json_recursive.eq_def]
  rfl

lemma compare_null_left (b : JsonVal) (hb : isNull b = false) (path : String) :
    compare_json_recursive JsonVal.null b path
      = [⟨path, JsonVal.null, b, "missing_in_geth"⟩] := by
  rw [compare_json_recursive.eq_def]
  simp [hb, (show isNull JsonVal.null = true from rfl)]

lemma compare_null_right (g : JsonVal) (hg : isNull g = false) (path : String) :
    compare_json_recursive g JsonVal.null path
      = [⟨path, g, JsonVal.null, "missing_in_besu"⟩] := by
  rw [compare_json_recursive.eq_def]
  simp [hg, (show isNull JsonVal.null = true from rfl)]

/-- Unfolding of the comparator on two mappings: the key loop over the
sorted key union. -/
lemma compare_obj_eq (gk bk : List (String × JsonVal)) (path : String) :
    compare_json_recursive (JsonVal.obj gk) (JsonVal.obj bk) path
      = compareObjects gk bk (unionKeys gk bk) path := by
  rw [compare_json_recursive.eq_def]
  simp [isNull, typeTag]

lemma compareArrays_swap (gs : List JsonVal) : ∀ (bs : List JsonVal) (i : Nat) (path : String),
    (∀ g2 b2, g2 ∈ gs → b2 ∈ bs → ∀ p, compare_json_recursive b2 g2 p
      = (compare_json_recursive g2 b2 p).map swapDiff) →
    compareArrays bs gs i path = (compareArrays gs bs i path).map swapDiff := by
  induction gs with
  | nil =>
    intro bs i path _
    rw [compareArrays.eq_def]
    conv_rhs => rw [compareArrays.eq_def]
    cases bs <;> simp
  | cons g gs2 ih =>
    intro bs i path h
    cases bs with
    | nil =>
      rw [compareArrays.eq_def]
      conv_rhs => rw [compareArrays.eq_def]
      simp
    | cons b bs2 =>
      rw [compareArrays.eq_def]
      conv_rhs => rw [compareArrays.eq_def]
      simp only [List.map_append]
      rw [h g b (by simp) (by simp) _,
        ih bs2 (i + 1) path (fun g2 b2 hg2 hb2 p => h g2 b2 (by simp [hg2]) (by simp [hb2]) p)]

lemma compareObjects_swap (gk bk : List (String × JsonVal)) :
    ∀ (keys : List String) (path : String),
    (∀ gv bv k, List.lookup k gk = some gv → List.lookup k bk = some bv →
      ∀ p, compare_json_recursive bv gv p = (compare_json_recursive gv bv p).map swapDiff) →
    compareObjects bk gk keys path = (compareObjects gk bk keys path).map swapDiff := by
  intro keys
  induction keys with
  | nil =>
    intro path _
    rw [compareObjectsNil, compareObjectsNil]
    rfl
  | cons k ks ih =>
    intro path h
    rw [compareObjectsCons, compareObjectsCons, List.map_append, ih path h]
    congr 1
    cases hg : List.lookup k gk with
    | none =>
      cases hb : List.lookup k bk with
      | none =>
        rw [compareKey_none_none bk gk k path hb hg, compareKey_none_none gk bk k path hg hb]
        rfl
      | some bv =>
        rw [compareKey_missing_besu bk gk k path bv hb hg,
          compareKey_missing_geth gk bk k path bv hg hb]
        simp [swapDiff]
    | some gv =>
      cases hb : List.lookup k bk with
      | none =>
        rw [compareKey_missing_geth bk gk k path gv hb hg,
          compareKey_missing_besu gk bk k path gv hg hb]
        simp [swapDiff]
      | some bv =>
        rw [compareKey_both bk gk k path bv gv hb hg, compareKey_both gk bk k path gv bv hg hb]
        exact h gv bv k hg hb _

/-- Swapping the two trees mirrors the difference list record by
record. -/
lemma compare_swap (A B : JsonVal) (path : String) :
    compare_json_recursive B A path = (compare_json_recursive A B path).map swapDiff := by
  refine jsonPairInduction (fun A B => ∀ p, compare_json_recursive B A p
      = (compare_json_recursive A B p).map swapDiff) ?_ A B path
  intro X Y ih p
  by_cases hX : isNull X = true
  · rw [(isNull_eq_true_iff X).mp hX]
    by_cases hY : isNull Y = true
    · rw [(isNull_eq_true_iff Y).mp hY, compare_null_null]
      rfl
    · have hY2 : isNull Y = false := Bool.not_eq_true _ ▸ hY
      rw [compare_null_left Y hY2 p, compare_null_right Y hY2 p]
      simp [swapDiff]
  · have hX2 : isNull X = false := Bool.not_eq_true _ ▸ hX
    by_cases hY : isNull Y = true
    · rw [(isNull_eq_true_iff Y).mp hY, compare_null_right X hX2 p, compare_null_left X hX2 p]
      simp [swapDiff]
    · have hY2 : isNull Y = false := Bool.not_eq_true _ ▸ hY
      by_cases hty : typeTag X = typeTag Y
      · cases X <;> cases Y
        all_goals try simp [isNull] at hX2 hY2
        all_goals try (simp only [typeTag] at hty; omega)
        · rename_i x y
          rw [compare_json_recursive.eq_def]
          conv_rhs => rw [compare_json_recursive.eq_def]
          by_cases hxy : x = y
          · subst hxy
            simp [isNull, typeTag, scalarEq]
          · simp [isNull, typeTag, scalarEq, hxy, Ne.symm hxy, swapDiff]
        · rename_i x y
          rw [compare_json_recursive.eq_def]
          conv_rhs => rw [compare_json_recursive.eq_def]
          by_cases hxy : x = y
          · subst hxy
            simp [isNull, typeTag, scalarEq]
          · simp [isNull, typeTag, scalarEq, hxy, Ne.symm hxy, swapDiff]
        · rename_i x y
          rw [compare_json_recursive.eq_def]
          conv_rhs => rw [compare_json_recursive.eq_def]
          by_cases hxy : x = y
          · subst hxy
            simp [isNull, typeTag, scalarEq]
          · simp [isNull, typeTag, scalarEq, hxy, Ne.symm hxy, swapDiff]
        · rename_i gs bs
          rw [compare_arr_eq, compare_arr_eq, List.map_append]
          congr 1
          · by_cases hlen : gs.length = bs.length
            · simp [hlen]
            · simp [hlen, Ne.symm hlen, swapDiff]
          · refine compareArrays_swap gs bs 0 p ?_
            intro g2 b2 hg2 hb2 pr
            refine ih g2 b2 ?_ pr
            have h1 := List.sizeOf_lt_of_mem hg2
            have h2 := List.sizeOf_lt_of_mem hb2
            simp
            omega
        · rename_i gk bk
          rw [compare_obj_eq, compare_obj_eq, unionKeys_comm bk gk]
          refine compareObjects_swap gk bk (unionKeys gk bk) p ?_
          intro gv bv k hg hb pr
          refine ih gv bv ?_ pr
          have h1 := sizeOf_lookup_lt hg
          have h2 := sizeOf_lookup_lt hb
          simp
          omega
      · rw [compare_type_differ Y X p hY2 hX2 (fun hh => hty hh.symm),
          compare_type_differ X Y p hX2 hY2 hty, Bool.and_comm]
        by_cases hint : (isIntOrStr X && isIntOrStr Y) = true
        · rw [if_pos hint, if_pos hint]
          by_cases hstr : pyStr X = pyStr Y
          · rw [if_pos hstr.symm, if_pos hstr]
            rfl
          · rw [if_neg (fun hh => hstr hh.symm), if_neg hstr]
            simp [swapDiff]
        · rw [if_neg hint, if_neg hint]
          simp [swapDiff]

/-- C6: comparing (A, B) and (B, A) yields difference lists that are
record-by-record mirrors: same length, and at each position the same
path, with missing_in_geth and missing_in_besu exchanged (the spec's
missing_in_left / missing_in_right) and value_mismatch / type_mismatch
keeping their kind while the two values swap sides — exactly the
`swapDiff` transformation. -/
theorem claim6_symmetry (A B : JsonVal) (path : String) :
    compare_json_recursive B A path = (compare_json_recursive A B path).map swapDiff ∧
    (compare_json_recursive B A path).length = (compare_json_recursive A B path).length := by
  refine ⟨compare_swap A B path, ?_⟩
  rw [compare_swap A B path, List.length_map]

lemma extendsPath_refl (p : String) : extendsPath p p :=
  ⟨[], (String.append_empty p).symm⟩

lemma extendsPath_seg_self (p : String) (s : PathSeg) : extendsPath p (p ++ renderSeg s) :=
  ⟨[s], by simp [renderSegs, String.append_empty]⟩

lemma extendsPath_cons (p : String) (s : PathSeg) (q : String)
    (h : extendsPath (p ++ renderSeg s) q) : extendsPath p q := by
  obtain ⟨segs, rfl⟩ := h
  exact ⟨s :: segs, by simp [renderSegs, String.append_assoc]⟩

lemma key_path_eq (p k : String) : p ++ "." ++ k = p ++ renderSeg (PathSeg.key k) := by
  simp [renderSeg, String.append_assoc]

lemma idx_path_eq (p : String) (j : Nat) :
    p ++ "[" ++ toString j ++ "]" = p ++ renderSeg (PathSeg.idx j) := by
  simp [renderSeg, String.append_assoc]

lemma len_path_eq (p : String) : p ++ ".length" = p ++ renderSeg PathSeg.length := rfl

lemma compare_bool_eq (x y : Bool) (path : String) :
    compare_json_recursive (JsonVal.bool x) (JsonVal.bool y) path
      = if x = y then [] else [⟨path, JsonVal.bool x, JsonVal.bool y, "value_mismatch"⟩] := by
  rw [compare_json_recursive.eq_def]
  by_cases hxy : x = y
  · subst hxy
    simp [isNull, typeTag, scalarEq]
  · simp [isNull, typeTag, scalarEq, hxy]

lemma compare_num_eq (x y : Int) (path : String) :
    compare_json_recursive (JsonVal.num x) (JsonVal.num y) path
      = if x = y then [] else [⟨path, JsonVal.num x, JsonVal.num y, "value_mismatch"⟩] := by
  rw [compare_json_recursive.eq_def]
  by_cases hxy : x = y
  · subst hxy
    simp [isNull, typeTag, scalarEq]
  · simp [isNull, typeTag, scalarEq, hxy]

lemma compare_str_eq (x y : String) (path : String) :
    compare_json_recursive (JsonVal.str x) (JsonVal.str y) path
      = if x = y then [] else [⟨path, JsonVal.str x, JsonVal.str y, "value_mismatch"⟩] := by
  rw [compare_json_recursive.eq_def]
  by_cases hxy : x = y
  · subst hxy
    simp [isNull, typeTag, scalarEq]
  · simp [isNull, typeTag, scalarEq, hxy]

lemma compareArrays_mem (gs : List JsonVal) : ∀ (bs : List JsonVal) (i : Nat) (path : String)
    (d : DiffResult), d ∈ compareArrays gs bs i path →
    ∃ (j : Nat) (g2 b2 : JsonVal), g2 ∈ gs ∧ b2 ∈ bs ∧
      d ∈ compare_json_recursive g2 b2 (path ++ "[" ++ toString j ++ "]") := by
  induction gs with
  | nil =>
    intro bs i path d hd
    rw [compareArrays.eq_def] at hd
    cases bs <;> simp at hd
  | cons g gs2 ih =>
    intro bs i path d hd
    cases bs with
    | nil =>
      rw [compareArrays.eq_def] at hd
      simp at hd
    | cons b bs2 =>
      rw [compareArrays.eq_def] at hd
      simp only [List.mem_append] at hd
      rcases hd with hmem | hmem
      · exact ⟨i, g, b, by simp, by simp, hmem⟩
      · obtain ⟨j, g2, b2, hg2, hb2, hcm⟩ := ih bs2 (i + 1) path d hmem
        exact ⟨j, g2, b2, by simp [hg2], by simp [hb2], hcm⟩

lemma compareObjects_mem (gk bk : List (String × JsonVal)) :
    ∀ (keys : List String) (path : String) (d : DiffResult),
    d ∈ compareObjects gk bk keys path →
    ∃ k, d.path = path ++ "." ++ k ∨
      ∃ gv bv, List.lookup k gk = some gv ∧ List.lookup k bk = some bv ∧
        d ∈ compare_json_recursive gv bv (path ++ "." ++ k) := by
  intro keys
  induction keys with
  | nil =>
    intro path d hd
    rw [compareObjectsNil] at hd
    cases hd
  | cons k ks ih =>
    intro path d hd
    rw [compareObjectsCons] at hd
    rcases List.mem_append.mp hd with hmem | hmem
    · refine ⟨k, ?_⟩
      cases hg : List.lookup k gk with
      | none =>
        cases hb : List.lookup k bk with
        | none =>
          rw [compareKey_none_none gk bk k path hg hb] at hmem
          cases hmem
        | some bv =>
          rw [compareKey_missing_geth gk bk k path bv hg hb] at hmem
          obtain rfl := List.mem_singleton.mp hmem
          exact Or.inl rfl
      | some gv =>
        cases hb : List.lookup k bk with
        | none =>
          rw [compareKey_missing_besu gk bk k path gv hg hb] at hmem
          obtain rfl := List.mem_singleton.mp hmem
          exact Or.inl rfl
        | some bv =>
          rw [compareKey_both gk bk k path gv bv hg hb] at hmem
          exact Or.inr ⟨gv, bv, rfl, rfl, hmem⟩
    · exact ih path d hmem

/-- C10: every record produced by the comparison walk starting at a
path has a path equal to the starting path or extending it by a
sequence of segments of the form .key, [index], or .length; no record
escapes the subtree rooted at the starting path. -/
theorem claim10_path_prefix (A B : JsonVal) (path : String) (d : DiffResult)
    (hd : d ∈ compare_json_recursive A B path) : extendsPath path d.path := by
  refine jsonPairInduction (fun A B => ∀ p d2, d2 ∈ compare_json_recursive A B p →
    extendsPath p d2.path) ?_ A B path d hd
  intro X Y ih p d2 hmem
  by_cases hX : isNull X = true
  · rw [(isNull_eq_true_iff X).mp hX] at hmem
    by_cases hY : isNull Y = true
    · rw [(isNull_eq_true_iff Y).mp hY, compare_null_null] at hmem
      cases hmem
    · rw [compare_null_left Y (Bool.not_eq_true _ ▸ hY) p] at hmem
      obtain rfl := List.mem_singleton.mp hmem
      exact extendsPath_refl p
  · have hX2 : isNull X = false := Bool.not_eq_true _ ▸ hX
    by_cases hY : isNull Y = true
    · rw [(isNull_eq_true_iff Y).mp hY, compare_null_right X hX2 p] at hmem
      obtain rfl := List.mem_singleton.mp hmem
      exact extendsPath_refl p
    · have hY2 : isNull Y = false := Bool.not_eq_true _ ▸ hY
      by_cases hty : typeTag X = typeTag Y
      · cases X <;> cases Y
        all_goals try simp [isNull] at hX2 hY2
        all_goals try (simp only [typeTag] at hty; omega)
        · rename_i x y
          rw [compare_bool_eq] at hmem
          by_cases hxy : x = y
          · rw [if_pos hxy] at hmem
            cases hmem
          · rw [if_neg hxy] at hmem
            obtain rfl := List.mem_singleton.mp hmem
            exact extendsPath_refl p
        · rename_i x y
          rw [compare_num_eq] at hmem
          by_cases hxy : x = y
          · rw [if_pos hxy] at hmem
            cases hmem
          · rw [if_neg hxy] at hmem
            obtain rfl := List.mem_singleton.mp hmem
            exact extendsPath_refl p
        · rename_i x y
          rw [compare_str_eq] at hmem
          by_cases hxy : x = y
          · rw [if_pos hxy] at hmem
            cases hmem
          · rw [if_neg hxy] at hmem
            obtain rfl := List.mem_singleton.mp hmem
            exact extendsPath_refl p
        · rename_i gs bs
          rw [compare_arr_eq] at hmem
          rcases List.mem_append.mp hmem with hmem2 | hmem2
          · by_cases hlen : gs.length = bs.length
            · rw [if_neg (fun hcon => hcon hlen)] at hmem2
              cases hmem2
            · rw [if_pos hlen] at hmem2
              obtain rfl := List.mem_singleton.mp hmem2
              rw [(rfl : (DiffResult.mk (p ++ ".length") (JsonVal.num gs.length)
                (JsonVal.num bs.length) "value_mismatch").path = p ++ ".length"), len_path_eq]
              exact extendsPath_seg_self p PathSeg.length
          · obtain ⟨j, g2, b2, hg2, hb2, hcm⟩ := compareArrays_mem gs bs 0 p d2 hmem2
            have hext := ih g2 b2 (by
              have h1 := List.sizeOf_lt_of_mem hg2
              have h2 := List.sizeOf_lt_of_mem hb2
              simp
              omega) (p ++ "[" ++ toString j ++ "]") d2 hcm
            rw [idx_path_eq] at hext
            exact extendsPath_cons p (PathSeg.idx j) _ hext
        · rename_i gk bk
          rw [compare_obj_eq] at hmem
          obtain ⟨k, hk⟩ := compareObjects_mem gk bk (unionKeys gk bk) p d2 hmem
          rcases hk with hpath | ⟨gv, bv, hg, hb, hcm⟩
          · rw [hpath, key_path_eq]
            exact extendsPath_seg_self p (PathSeg.key k)
          · have hext := ih gv bv (by
              have h1 := sizeOf_lookup_lt hg
              have h2 := sizeOf_lookup_lt hb
              simp
              omega) (p ++ "." ++ k) d2 hcm
            rw [key_path_eq] at hext
            exact extendsPath_cons p (PathSeg.key k) _ hext
      · rw [compare_type_differ X Y p hX2 hY2 hty] at hmem
        by_cases hint : (isIntOrStr X && isIntOrStr Y) = true
        · rw [if_pos hint] at hmem
          by_cases hstr : pyStr X = pyStr Y
          · rw [if_pos hstr] at hmem
            cases hmem
          · rw [if_neg hstr] at hmem
            obtain rfl := List.mem_singleton.mp hmem
            exact extendsPath_refl p
        · rw [if_neg hint] at hmem
          obtain rfl := List.mem_singleton.mp hmem
          exact extendsPath_refl p

/-- C10 witness: at the concrete pair of one-key mappings that differ at
key a, the single record's path root.a lies in the subtree rooted at
root. -/
theorem claim10_witness : extendsPath "root" "root.a" := by
  refine claim10_path_prefix (JsonVal.obj [("a", JsonVal.num 1)])
    (JsonVal.obj [("a", JsonVal.num 2)]) "root"
    ⟨"root.a", JsonVal.num 1, JsonVal.num 2, "value_mismatch"⟩ ?_
  simp [compare_json_recursive.eq_def, compareObjects.eq_def, compareKey.eq_def,
    compareArrays.eq_def, unionKeys, isNull, typeTag, isIntOrStr, pyStr, scalarEq, strLe,
    charListLe, List.insertionSort, List.orderedInsert, List.lookup, List.dedup, List.pwFilter]
